import Mathlib

/-!
Verification of the `roller` dice-notation evaluator (src/main.rs).

The program is a single pipeline: two independent regex scans over the
input string (one for dice groups, one for flat constants), expansion of
the matches into a `Roll`, and evaluation of the roll with a critical
multiplier.  We embed that pipeline shallowly:

* the regexes `DICE = (?P<count>\d+)(?P<dtype>d\d+)\+?` and
  `CONSTANTS = \+(?P<const>\d+)(\+|$)` become executable scanners over
  `List Char` with the regex crate's leftmost, non-overlapping,
  continue-after-match semantics (`\d` is modelled as an ASCII digit);
* `c["..."].parse::<i32>()` on a digit run becomes a bounds check
  against the i32 maximum (digit runs are sign-free, so only overflow
  can fail);
* the `unreachable!()` branch of `impl From<&str> for Dice` is modelled
  as the distinguished outcome `RollError.unreachableCode`, kept apart
  from the `RollError.numberParseFailure` that models a returned
  `Err` from integer parsing;
* the thread-local RNG is modelled as an explicit entropy stream
  (`Rng := List Nat`); `rng.gen_range(lo, hi)` (contract: a value in
  `[lo, hi)`) consumes one element of the stream and stays in range;
* the i32 sums and the `(dice * crit) + constant` of `Roll::cast` are
  modelled with two's-complement wrapping (`wrap32`) at every
  operation, matching the release-build semantics of i32 overflow.
-/

namespace Roller

/-- One step of `\d+`: split a string into its maximal leading ASCII
digit run and the rest. -/
def takeDigits : List Char → List Char × List Char
  | [] => ([], [])
  | c :: cs =>
    if c.isDigit then (c :: (takeDigits cs).1, (takeDigits cs).2)
    else ([], c :: cs)

/-- The die enumeration of the source (`enum Dice`). -/
inductive Dice where
  | D4
  | D6
  | D8
  | D10
  | D12
  | D20
  | D100
deriving DecidableEq

/-- `impl From<&str> for Dice`: string dispatch on the captured `dtype`
token; the source's `unreachable!()` branch is `none` here (callers
turn it into `RollError.unreachableCode`). -/
def Dice.fromStr : List Char → Option Dice
  | ['d', '4'] => some .D4
  | ['d', '6'] => some .D6
  | ['d', '8'] => some .D8
  | ['d', '1', '0'] => some .D10
  | ['d', '1', '2'] => some .D12
  | ['d', '2', '0'] => some .D20
  | ['d', '1', '0', '0'] => some .D100
  | _ => none

/-- Number of sides of each die, as encoded by the `gen_range(1, n+1)`
bounds of `impl From<Dice> for i32`. -/
def numSides : Dice → Int
  | .D4 => 4
  | .D6 => 6
  | .D8 => 8
  | .D10 => 10
  | .D12 => 12
  | .D20 => 20
  | .D100 => 100

/-- The pseudo-random source, modelled as an explicit entropy stream. -/
abbrev Rng := List Nat

/-- Modelled from the contract of `rand::Rng::gen_range(lo, hi)`: a
value in the half-open interval `[lo, hi)`, consuming entropy. -/
def genRange (lo hi : Int) (g : Rng) : Int × Rng :=
  match g with
  | [] => (lo, [])
  | n :: rest => (lo + ((n % (hi - lo).toNat : Nat) : Int), rest)

/-- `impl From<Dice> for i32`: one random draw for a die. -/
def diceValue (d : Dice) (g : Rng) : Int × Rng :=
  match d with
  | .D4 => genRange 1 5 g
  | .D6 => genRange 1 7 g
  | .D8 => genRange 1 9 g
  | .D10 => genRange 1 11 g
  | .D12 => genRange 1 13 g
  | .D20 => genRange 1 21 g
  | .D100 => genRange 1 101 g

/-- `struct Roll`. -/
structure Roll where
  dice : List Dice
  constants : List Int
deriving DecidableEq

/-- `self.dice.into_iter().map(Into::<i32>::into).collect()`: draw one
outcome per die, in order, threading the random state. -/
def drawAll : List Dice → Rng → List Int × Rng
  | [], g => ([], g)
  | d :: ds, g =>
    let p := diceValue d g
    let q := drawAll ds p.2
    (p.1 :: q.1, q.2)

/-- Reduction of an integer into the i32 range by 32-bit
two's-complement wrapping. -/
def wrap32 (x : Int) : Int :=
  (x + 2147483648) % 4294967296 - 2147483648

/-- `Roll::cast`: draw all dice, sum the scores and the constants with
`iter().sum::<i32>()` (a left fold from 0), and return
`(dice * crit) + constant` — all of it i32 arithmetic, modelled as
two's-complement wrapping at every operation (the release-build
semantics; a debug build aborts at exactly the inputs where a wrap
occurs, so in neither build does the program return the unreduced
mathematical value there). -/
def Roll.cast (r : Roll) (crit : Int) (g : Rng) : Int × Rng :=
  let p := drawAll r.dice g
  let dice : Int := p.1.foldl (fun a b => wrap32 (a + b)) 0
  let constant : Int := r.constants.foldl (fun a b => wrap32 (a + b)) 0
  (wrap32 (wrap32 (dice * crit) + constant), p.2)

/-- A match of the `DICE` regex: the `count` capture (a digit run) and
the `dtype` capture (`d` followed by a digit run). -/
structure DiceMatch where
  count : List Char
  dtype : List Char
deriving DecidableEq

/-- Attempt to match `(?P<count>\d+)(?P<dtype>d\d+)\+?` at the start of
the string; on success return the captures and the remainder of the
input after the match. -/
def matchDiceAt (s : List Char) : Option (DiceMatch × List Char) :=
  if (takeDigits s).1 = [] then none
  else
    match (takeDigits s).2 with
    | 'd' :: r2 =>
      if (takeDigits r2).1 = [] then none
      else
        match (takeDigits r2).2 with
        | '+' :: r4 => some (⟨(takeDigits s).1, 'd' :: (takeDigits r2).1⟩, r4)
        | r3 => some (⟨(takeDigits s).1, 'd' :: (takeDigits r2).1⟩, r3)
    | _ => none

/-- `DICE.captures_iter`: leftmost non-overlapping matches, resuming
after each match.  Fuel-driven; every step consumes at least one input
character, so `fuel = input.length` performs the full scan. -/
def scanDiceF : Nat → List Char → List DiceMatch
  | 0, _ => []
  | _ + 1, [] => []
  | fuel + 1, c :: cs =>
    match matchDiceAt (c :: cs) with
    | some (m, rest) => m :: scanDiceF fuel rest
    | none => scanDiceF fuel cs

/-- All matches of the `DICE` regex, in order of appearance. -/
def scanDice (s : List Char) : List DiceMatch := scanDiceF s.length s

/-- A match of the `CONSTANTS` regex: its start position in the input
and the `const` capture (a digit run). -/
structure ConstMatch where
  start : Nat
  constDigits : List Char
deriving DecidableEq

/-- Attempt to match `\+(?P<const>\d+)(\+|$)` at the start of the
string; the terminating `+`, when present, is consumed by the match. -/
def matchConstAt (s : List Char) : Option (List Char × List Char) :=
  match s with
  | '+' :: r1 =>
    if (takeDigits r1).1 = [] then none
    else
      match (takeDigits r1).2 with
      | '+' :: r3 => some ((takeDigits r1).1, r3)
      | [] => some ((takeDigits r1).1, [])
      | _ => none
  | _ => none

/-- `CONSTANTS.captures_iter`, with absolute start positions. -/
def scanConstsF : Nat → Nat → List Char → List ConstMatch
  | 0, _, _ => []
  | _ + 1, _, [] => []
  | fuel + 1, off, c :: cs =>
    match matchConstAt (c :: cs) with
    | some (digits, rest) =>
      ⟨off, digits⟩ :: scanConstsF fuel (off + ((c :: cs).length - rest.length)) rest
    | none => scanConstsF fuel (off + 1) cs

/-- All matches of the `CONSTANTS` regex, in order of appearance. -/
def scanConsts (s : List Char) : List ConstMatch := scanConstsF s.length 0 s

/-- The two ways a run of `parse` can fail to return a `Roll`:
a returned `Err` from `parse::<i32>` on a digit run, or reaching the
`unreachable!()` branch of `Dice::from` (a process abort in the
source, modelled as a distinguished outcome). -/
inductive RollError where
  | numberParseFailure
  | unreachableCode
deriving DecidableEq

deriving instance DecidableEq for Except

/-- Numeric value of an ASCII digit run. -/
def digitsToNat (l : List Char) : Nat :=
  l.foldl (fun a c => a * 10 + (c.toNat - '0'.toNat)) 0

/-- `i32::MAX`. -/
def i32Max : Nat := 2147483647

/-- `"…".parse::<i32>()` on a captured digit run: the run is sign-free,
so the only failure is overflow past `i32::MAX`. -/
def parseI32 (l : List Char) : Except RollError Int :=
  if digitsToNat l ≤ i32Max then .ok (Int.ofNat (digitsToNat l))
  else .error .numberParseFailure

/-- The inner loop `for _ in 0..count { roll.dice.push(Dice::from(&c["dtype"])) }`:
each iteration converts the `dtype` capture anew, so a zero count never
reaches the conversion at all. -/
def pushGroupDice (dtype : List Char) : Nat → List Dice → Except RollError (List Dice)
  | 0, acc => .ok acc
  | n + 1, acc =>
    match Dice.fromStr dtype with
    | some d => pushGroupDice dtype n (acc ++ [d])
    | none => .error .unreachableCode

/-- The first loop of `parse`: expand every `DICE` match, in order. -/
def processDiceMatches : List DiceMatch → List Dice → Except RollError (List Dice)
  | [], acc => .ok acc
  | m :: ms, acc =>
    match parseI32 m.count with
    | .error e => .error e
    | .ok n =>
      match pushGroupDice m.dtype n.toNat acc with
      | .error e => .error e
      | .ok acc2 => processDiceMatches ms acc2

/-- The second loop of `parse`: collect every `CONSTANTS` match. -/
def processConstMatches : List ConstMatch → List Int → Except RollError (List Int)
  | [], acc => .ok acc
  | m :: ms, acc =>
    match parseI32 m.constDigits with
    | .error e => .error e
    | .ok v => processConstMatches ms (acc ++ [v])

/-- `fn parse(input: &str) -> Result<Roll>`: the dice loop runs first in
its entirety, then the constants loop. -/
def parse (input : List Char) : Except RollError Roll :=
  match processDiceMatches (scanDice input) [] with
  | .error e => .error e
  | .ok dice =>
    match processConstMatches (scanConsts input) [] with
    | .error e => .error e
    | .ok constants => .ok ⟨dice, constants⟩

/-- `fn run(input, crit)`: parse, then cast.  On a parse failure the
random state is returned untouched: no die is ever rolled. -/
def run (input : List Char) (crit : Int) (g : Rng) : Except RollError Int × Rng :=
  match parse input with
  | .error e => (.error e, g)
  | .ok r =>
    let p := r.cast crit g
    (.ok p.1, p.2)

/-- Some digit run captured as a `count` or a `const` exceeds
`i32::MAX`, so `parse::<i32>` would reject it. -/
def badNumericCaptureB (s : List Char) : Bool :=
  (scanDice s).any (fun m => i32Max < digitsToNat m.count)
  || (scanConsts s).any (fun m => i32Max < digitsToNat m.constDigits)

/-! Concrete inputs used by the claims. -/

def s2d7 : List Char := "2d7".toList

def s0d7 : List Char := "0d7".toList

def s0d4 : List Char := "0d4".toList

def s3d4 : List Char := "3d4".toList

def sMixed : List Char := "3d4+6+2d8+9".toList

def sPlus3 : List Char := "+3".toList

def sFive : List Char := "5".toList

def sHello : List Char := "hello".toList

def sGlued : List Char := "+6+9".toList

def sBigCount : List Char := "9999999999d4".toList

def sMixedBad : List Char := "2d7x99999999999d4".toList

def sOverflow : List Char := "0d4+2147483647+0d4+2147483647".toList

/-! Helper lemmas. -/

theorem takeDigits_append_eq (s : List Char) : (takeDigits s).1 ++ (takeDigits s).2 = s := by
  induction s with
  | nil => rfl
  | cons c cs ih =>
    by_cases h : c.isDigit <;> simp [takeDigits, h, ih]

theorem takeDigits_digits (s : List Char) : ∀ c ∈ (takeDigits s).1, c.isDigit = true := by
  induction s with
  | nil => intro c hc; simp [takeDigits] at hc
  | cons c cs ih =>
    intro x hx
    by_cases h : c.isDigit
    · simp [takeDigits, h] at hx
      rcases hx with rfl | hx
      · exact h
      · exact ih x hx
    · simp [takeDigits, h] at hx

theorem takeDigits_append_plus (a b : List Char) (h : ∀ c ∈ a, c.isDigit = true) :
    takeDigits (a ++ '+' :: b) = (a, '+' :: b) := by
  induction a with
  | nil => simp [takeDigits]
  | cons c cs ih =>
    have hc : c.isDigit = true := h c (by simp)
    have ih2 := ih (fun x hx => h x (by simp [hx]))
    simp [takeDigits, hc, ih2]

theorem wrap32_modEq (x : Int) : Int.ModEq 4294967296 (wrap32 x) x := by
  rw [Int.modEq_iff_dvd]
  refine ⟨(x + 2147483648) / 4294967296, ?_⟩
  have h := Int.emod_def (x + 2147483648) 4294967296
  unfold wrap32
  omega

theorem wrap32_eq_of_modEq {x y : Int} (h : Int.ModEq 4294967296 x y) :
    wrap32 x = wrap32 y := by
  unfold wrap32
  have h2 : (x + 2147483648) % 4294967296 = (y + 2147483648) % 4294967296 :=
    Int.ModEq.add_right 2147483648 h
  rw [h2]

theorem wrap32_zero : wrap32 0 = 0 := by decide

theorem wrap32_eq_self {x : Int} (h1 : -2147483648 ≤ x) (h2 : x ≤ 2147483647) :
    wrap32 x = x := by
  unfold wrap32
  rw [Int.emod_eq_of_lt (by omega) (by omega)]
  omega

theorem foldl_wadd_eq_wrap32_sum (l : List Int) :
    l.foldl (fun a b => wrap32 (a + b)) 0 = wrap32 l.sum := by
  have key : ∀ (l : List Int) (a : Int),
      l.foldl (fun x y => wrap32 (x + y)) (wrap32 a) = wrap32 (a + l.sum) := by
    intro l
    induction l with
    | nil => intro a; simp
    | cons x xs ih =>
      intro a
      simp only [List.foldl_cons]
      rw [wrap32_eq_of_modEq ((wrap32_modEq a).add_right x), ih (a + x)]
      congr 1
      rw [List.sum_cons]
      ring
  have h0 : (0 : Int) = wrap32 0 := wrap32_zero.symm
  rw [h0, key l 0]
  simp

theorem genRange_bounds (lo hi : Int) (g : Rng) (h : lo < hi) :
    lo ≤ (genRange lo hi g).1 ∧ (genRange lo hi g).1 < hi := by
  cases g with
  | nil => exact ⟨le_refl lo, h⟩
  | cons n rest =>
    simp only [genRange]
    have hk : 0 < (hi - lo).toNat := by omega
    have hmod : n % (hi - lo).toNat < (hi - lo).toNat := Nat.mod_lt n hk
    constructor <;> omega

/-! Claim theorems. -/

/-- Claim C1 (code bug in the source): the spec requires an input with an
unsupported side count to fail with an unrecognized-die-type failure
result.  The code instead reaches its own `unreachable!()` assertion on
"2d7" (a process abort, not a returned failure), and on "0d7" — a
dice-group match whose sides value 7 is not supported but whose count is
0 — it never inspects the die type at all: parsing succeeds with an
empty roll and `run` produces the numeric total 0. -/
theorem parse_unsupported_sides_behavior :
    parse s2d7 = .error .unreachableCode ∧
    parse s0d7 = .ok ⟨[], []⟩ ∧
    run s0d7 1 [] = (.ok 0, []) := by
  decide

/-- Counterexample to Claim C2 as stated: the input
"0d4+2147483647+0d4+2147483647" parses to the roll with constants
[2147483647, 2147483647] (so the overflow is parse-reachable), and the
program's i32 evaluation of that roll at multiplier 1 wraps to -2 — it
does not return the mathematical value 4294967294 =
diceSum * 1 + constSum (a debug build aborts at the same input). -/
theorem cast_overflow_counterexample :
    parse sOverflow = .ok ⟨[], [2147483647, 2147483647]⟩ ∧
    ((Roll.mk [] [2147483647, 2147483647]).cast 1 []).1 = -2 ∧
    ((Roll.mk [] [2147483647, 2147483647]).cast 1 []).1 ≠
      (drawAll (Roll.mk [] [2147483647, 2147483647]).dice []).1.sum * 1 +
        (Roll.mk [] [2147483647, 2147483647]).constants.sum := by
  decide

/-- Claim C2, amended: `Roll::cast` returns the 32-bit two's-complement
reduction of `(sum of drawn outcomes) * crit + (sum of constants)` —
exactly that value whenever it lies within the i32 range — with the
critical multiplier applied to the dice total only, never to the
constants; and given equal drawn outcomes and equal constants the
result is the same: evaluation is a pure function of the outcomes, the
constants and the multiplier. -/
theorem cast_wrap32_formula (r : Roll) (m : Int) (g : Rng) :
    (r.cast m g).1 = wrap32 ((drawAll r.dice g).1.sum * m + r.constants.sum) ∧
    (-2147483648 ≤ (drawAll r.dice g).1.sum * m + r.constants.sum →
      (drawAll r.dice g).1.sum * m + r.constants.sum ≤ 2147483647 →
      (r.cast m g).1 = (drawAll r.dice g).1.sum * m + r.constants.sum) ∧
    (∀ (r2 : Roll) (g2 : Rng), r2.constants = r.constants →
      (drawAll r2.dice g2).1 = (drawAll r.dice g).1 →
      (r2.cast m g2).1 = (r.cast m g).1) := by
  have hmain : ∀ (rr : Roll) (gg : Rng),
      (rr.cast m gg).1 = wrap32 ((drawAll rr.dice gg).1.sum * m + rr.constants.sum) := by
    intro rr gg
    simp only [Roll.cast, foldl_wadd_eq_wrap32_sum]
    apply wrap32_eq_of_modEq
    exact ((wrap32_modEq _).trans ((wrap32_modEq _).mul_right m)).add (wrap32_modEq _)
  refine ⟨hmain r g, fun hlo hhi => ?_, fun r2 g2 hc hd => ?_⟩
  · rw [hmain r g]
    exact wrap32_eq_self hlo hhi
  · rw [hmain r2 g2, hmain r g, hc, hd]

/-- Witness for C2 at concrete inputs: a D4 drawing 1 with constant 2
and multiplier 2 evaluates to the in-range value 1 * 2 + 2 exactly, and
a D6 drawing the same outcome from its own random state evaluates to
the same result. -/
theorem cast_wrap32_formula_witness :
    ((Roll.mk [Dice.D4] [2]).cast 2 [0]).1 =
      (drawAll (Roll.mk [Dice.D4] [2]).dice [0]).1.sum * 2 +
        (Roll.mk [Dice.D4] [2]).constants.sum ∧
    ((Roll.mk [Dice.D6] [2]).cast 2 [0]).1 = ((Roll.mk [Dice.D4] [2]).cast 2 [0]).1 := by
  constructor
  · exact (cast_wrap32_formula (Roll.mk [Dice.D4] [2]) 2 [0]).2.1 (by decide) (by decide)
  · exact (cast_wrap32_formula (Roll.mk [Dice.D4] [2]) 2 [0]).2.2
      (Roll.mk [Dice.D6] [2]) [0] (by decide) (by decide)

/-- Claim C3: parsing "3d4+6+2d8+9" succeeds with
dice = [D4, D4, D4, D8, D8] and constants = [6, 9], order of appearance
preserved independently within each sequence. -/
theorem parse_mixed_expression :
    parse sMixed = .ok ⟨[.D4, .D4, .D4, .D8, .D8], [6, 9]⟩ := by
  decide

/-- Claim C4: when neither pattern matches, parsing succeeds with the
empty roll, and evaluating the empty roll yields 0 for every critical
multiplier (and consumes no randomness). -/
theorem parse_no_matches_empty (s : List Char) (m : Int) (g : Rng)
    (hd : scanDice s = []) (hc : scanConsts s = []) :
    parse s = .ok ⟨[], []⟩ ∧ (Roll.mk [] []).cast m g = (0, g) := by
  constructor
  · simp [parse, hd, hc, processDiceMatches, processConstMatches]
  · simp [Roll.cast, drawAll, wrap32_zero]

/-- Witness for C4: "hello" matches neither pattern; it parses to the
empty roll, which evaluates to 0 under multiplier 3. -/
theorem parse_no_matches_empty_witness :
    scanDice sHello = [] ∧ scanConsts sHello = [] ∧
    (parse sHello = .ok ⟨[], []⟩ ∧ (Roll.mk [] []).cast 3 [1, 2] = (0, [1, 2])) := by
  refine ⟨by decide, by decide, ?_⟩
  exact parse_no_matches_empty sHello 3 [1, 2] (by decide) (by decide)

/-- Claim C5: every draw for a supported die lies in the inclusive
range 1 .. (number of sides), and the supported side counts are exactly
4, 6, 8, 10, 12, 20 and 100. -/
theorem diceValue_mem_range (d : Dice) (g : Rng) :
    1 ≤ (diceValue d g).1 ∧ (diceValue d g).1 ≤ numSides d ∧
    (numSides d = 4 ∨ numSides d = 6 ∨ numSides d = 8 ∨ numSides d = 10 ∨
     numSides d = 12 ∨ numSides d = 20 ∨ numSides d = 100) := by
  have h4 := genRange_bounds 1 5 g (by decide)
  have h6 := genRange_bounds 1 7 g (by decide)
  have h8 := genRange_bounds 1 9 g (by decide)
  have h10 := genRange_bounds 1 11 g (by decide)
  have h12 := genRange_bounds 1 13 g (by decide)
  have h20 := genRange_bounds 1 21 g (by decide)
  have h100 := genRange_bounds 1 101 g (by decide)
  cases d <;> simp only [diceValue, numSides] <;>
    exact ⟨by omega, by omega, by decide⟩

/-- Claim C7: "+3" parses to dice = [] and constants = [3]; the
constant is recognized although no dice group matches at all. -/
theorem parse_leading_plus_constant :
    parse sPlus3 = .ok ⟨[], [3]⟩ ∧ scanDice sPlus3 = [] := by
  decide

theorem pushGroupDice_of_fromStr (dt : List Char) (d : Dice) (h : Dice.fromStr dt = some d) :
    ∀ (n : Nat) (acc : List Dice), pushGroupDice dt n acc = .ok (acc ++ List.replicate n d) := by
  intro n
  induction n with
  | zero => intro acc; simp [pushGroupDice]
  | succ k ih =>
    intro acc
    simp [pushGroupDice, h, ih (acc ++ [d]), List.replicate_succ]

/-- Claim C9: the expansion loop for one dice-group match appends
exactly `count` copies of the die: a count of 0 appends nothing and
succeeds for any `dtype` capture (the conversion inside the loop body
is never reached), and a supported `dtype` with count `n` appends
exactly `n` identical entries; concretely, "0d4" parses to the empty
roll and "3d4" to three D4 entries. -/
theorem pushGroupDice_zero_and_replicate (dt : List Char) (n : Nat) (acc : List Dice) (d : Dice) :
    pushGroupDice dt 0 acc = .ok acc ∧
    (Dice.fromStr dt = some d → pushGroupDice dt n acc = .ok (acc ++ List.replicate n d)) ∧
    parse s0d4 = .ok ⟨[], []⟩ ∧
    parse s3d4 = .ok ⟨[.D4, .D4, .D4], []⟩ := by
  refine ⟨by simp [pushGroupDice], fun h => pushGroupDice_of_fromStr dt d h n acc,
    by decide, by decide⟩

/-- Witness for C9: the token "d4" is supported, and expanding a count
of 2 appends exactly two D4 entries. -/
theorem pushGroupDice_zero_and_replicate_witness :
    Dice.fromStr ['d', '4'] = some Dice.D4 ∧
    pushGroupDice ['d', '4'] 2 [] = .ok [Dice.D4, Dice.D4] := by
  constructor
  · decide
  · have h := (pushGroupDice_zero_and_replicate ['d', '4'] 2 [] Dice.D4).2.1 (by decide)
    simpa using h

theorem matchConstAt_spec (s c1 rest : List Char) (h : matchConstAt s = some (c1, rest)) :
    c1 ≠ [] ∧ (∀ c ∈ c1, c.isDigit = true) ∧
    (s = '+' :: (c1 ++ rest) ∨ s = '+' :: (c1 ++ '+' :: rest)) := by
  unfold matchConstAt at h
  split at h
  · rename_i r1
    have hdig := takeDigits_digits r1
    have happ := takeDigits_append_eq r1
    split at h
    · simp at h
    · rename_i h1
      split at h
      · rename_i r3 heq
        obtain ⟨hA, hB⟩ : (takeDigits r1).1 = c1 ∧ r3 = rest := by simpa using h
        subst hA
        subst hB
        refine ⟨h1, hdig, Or.inr ?_⟩
        rw [← heq, happ]
      · rename_i heq
        obtain ⟨hA, hB⟩ : (takeDigits r1).1 = c1 ∧ ([] : List Char) = rest := by simpa using h
        subst hA
        subst hB
        refine ⟨h1, hdig, Or.inl ?_⟩
        rw [← heq, happ]
      · simp at h
  · simp at h

theorem scanConstsF_start (fuel : Nat) :
    ∀ (off : Nat) (s : List Char) (m : ConstMatch), m ∈ scanConstsF fuel off s →
      ∃ j, m.start = off + j ∧
        (s.drop j).take (m.constDigits.length + 1) = '+' :: m.constDigits := by
  induction fuel with
  | zero =>
    intro off s m hm
    simp [scanConstsF] at hm
  | succ k ih =>
    intro off s m hm
    cases s with
    | nil => simp [scanConstsF] at hm
    | cons c cs =>
      rcases hmc : matchConstAt (c :: cs) with _ | ⟨c1, rest⟩
      · simp only [scanConstsF, hmc] at hm
        obtain ⟨j, hj, ht⟩ := ih (off + 1) cs m hm
        refine ⟨j + 1, by omega, ?_⟩
        simpa using ht
      · simp only [scanConstsF, hmc] at hm
        obtain ⟨hne, hdig, hshape⟩ := matchConstAt_spec (c :: cs) c1 rest hmc
        rcases List.mem_cons.mp hm with hm0 | hm
        · subst hm0
          refine ⟨0, by simp, ?_⟩
          show ((c :: cs).drop 0).take (c1.length + 1) = '+' :: c1
          rcases hshape with hs | hs
          · rw [List.drop_zero, hs, List.take_succ_cons, List.take_left]
          · rw [List.drop_zero, hs, List.take_succ_cons, List.take_left]
        · obtain ⟨j, hj, ht⟩ := ih _ rest m hm
          rcases hshape with hs | hs
          · have hk : (c :: cs).length - rest.length = c1.length + 1 := by
              rw [hs]
              simp only [List.length_cons, List.length_append]
              omega
            have hdrop : (c :: cs).drop (c1.length + 1) = rest := by
              rw [hs, List.drop_succ_cons]
              exact List.drop_left c1 rest
            refine ⟨c1.length + 1 + j, ?_, ?_⟩
            · rw [hk] at hj
              omega
            · rw [← List.drop_drop, hdrop]
              exact ht
          · have hk : (c :: cs).length - rest.length = c1.length + 2 := by
              rw [hs]
              simp only [List.length_cons, List.length_append]
              omega
            have hdrop : (c :: cs).drop (c1.length + 2) = rest := by
              rw [hs, List.drop_succ_cons]
              have h2 : c1 ++ '+' :: rest = (c1 ++ ['+']) ++ rest := by simp
              have h3 : c1.length + 1 = (c1 ++ ['+']).length := by simp
              rw [h2, h3, List.drop_left]
            refine ⟨c1.length + 2 + j, ?_, ?_⟩
            · rw [hk] at hj
              omega
            · rw [← List.drop_drop, hdrop]
              exact ht

/-- Claim C8: a digit run is only ever recognized as a constant when a
literal '+' immediately precedes it: every match of the constants
pattern begins with '+' at its start position in the input, and the
bare input "5" contributes nothing to the constants. -/
theorem const_requires_preceding_plus :
    (∀ (s : List Char) (m : ConstMatch), m ∈ scanConsts s →
      (s.drop m.start).take (m.constDigits.length + 1) = '+' :: m.constDigits) ∧
    parse sFive = .ok ⟨[], []⟩ := by
  constructor
  · intro s m hm
    obtain ⟨j, hj, ht⟩ := scanConstsF_start s.length 0 s m hm
    have hj0 : m.start = j := by omega
    rw [hj0]
    exact ht
  · decide

/-- Witness for C8: the single constant match of "+3" starts at
position 0, where the input has its literal '+'. -/
theorem const_requires_preceding_plus_witness :
    (⟨0, ['3']⟩ : ConstMatch) ∈ scanConsts sPlus3 ∧
    (sPlus3.drop 0).take 2 = ['+', '3'] := by
  constructor
  · decide
  · have h := const_requires_preceding_plus.1 sPlus3 ⟨0, ['3']⟩ (by decide)
    simpa using h

theorem scanConstsF_no_plus (fuel : Nat) :
    ∀ (off : Nat) (s : List Char), '+' ∉ s → scanConstsF fuel off s = [] := by
  induction fuel with
  | zero => intro off s _; simp [scanConstsF]
  | succ k ih =>
    intro off s h
    cases s with
    | nil => simp [scanConstsF]
    | cons c cs =>
      rcases hmc : matchConstAt (c :: cs) with _ | ⟨c1, rest⟩
      · simp only [scanConstsF, hmc]
        exact ih (off + 1) cs (fun hmem => h (List.mem_cons_of_mem c hmem))
      · exfalso
        obtain ⟨-, -, hshape⟩ := matchConstAt_spec (c :: cs) c1 rest hmc
        rcases hshape with hs | hs <;>
          exact h (by rw [hs]; exact List.mem_cons_self '+' _)

theorem matchDiceAt_mem_d (s : List Char) (m : DiceMatch) (rest : List Char)
    (h : matchDiceAt s = some (m, rest)) : 'd' ∈ s := by
  unfold matchDiceAt at h
  split at h
  · simp at h
  · split at h
    · rename_i r2 heq
      have hmem : 'd' ∈ (takeDigits s).1 ++ (takeDigits s).2 := by
        rw [heq]
        exact List.mem_append_right _ (List.mem_cons_self 'd' r2)
      rwa [takeDigits_append_eq] at hmem
    · simp at h

theorem scanDiceF_no_d (fuel : Nat) :
    ∀ (s : List Char), 'd' ∉ s → scanDiceF fuel s = [] := by
  induction fuel with
  | zero => intro s _; simp [scanDiceF]
  | succ k ih =>
    intro s h
    cases s with
    | nil => simp [scanDiceF]
    | cons c cs =>
      rcases hmd : matchDiceAt (c :: cs) with _ | ⟨m, rest⟩
      · simp only [scanDiceF, hmd]
        exact ih cs (fun hmem => h (List.mem_cons_of_mem c hmem))
      · exact absurd (matchDiceAt_mem_d (c :: cs) m rest hmd) h

theorem scanConsts_glued (a b : List Char) (ha : a ≠ [])
    (hda : ∀ c ∈ a, c.isDigit = true) (hdb : ∀ c ∈ b, c.isDigit = true) :
    scanConsts ('+' :: (a ++ '+' :: b)) = [⟨0, a⟩] := by
  have hmc : matchConstAt ('+' :: (a ++ '+' :: b)) = some (a, b) := by
    simp only [matchConstAt, takeDigits_append_plus a b hda]
    simp [ha]
  have hnb : '+' ∉ b := by
    intro hmem
    have := hdb '+' hmem
    simp [Char.isDigit] at this
  show scanConstsF ('+' :: (a ++ '+' :: b)).length 0 ('+' :: (a ++ '+' :: b)) = [⟨0, a⟩]
  rw [List.length_cons]
  simp only [scanConstsF, hmc]
  rw [scanConstsF_no_plus _ _ b hnb]

/-- Claim C10: the terminating '+' of the constants pattern is consumed
by the match, so two constants glued directly together are not both
recognized: an input of the form "+a+b" (digit runs a and b) yields the
single constant a, while "3d4+6+2d8+9", where a dice group separates the
constants, yields both 6 and 9. -/
theorem glued_constants_single (a b : List Char) (ha : a ≠ []) (_hb : b ≠ [])
    (hda : ∀ c ∈ a, c.isDigit = true) (hdb : ∀ c ∈ b, c.isDigit = true) :
    scanConsts ('+' :: (a ++ '+' :: b)) = [⟨0, a⟩] ∧
    (digitsToNat a ≤ i32Max →
      parse ('+' :: (a ++ '+' :: b)) = .ok ⟨[], [(digitsToNat a : Int)]⟩) ∧
    parse sMixed = .ok ⟨[.D4, .D4, .D4, .D8, .D8], [6, 9]⟩ := by
  have hscan := scanConsts_glued a b ha hda hdb
  have hnod : 'd' ∉ ('+' :: (a ++ '+' :: b)) := by
    intro hmem
    rcases List.mem_cons.mp hmem with hc | hmem
    · simp at hc
    · rcases List.mem_append.mp hmem with hc | hc
      · have := hda 'd' hc
        simp [Char.isDigit] at this
      · rcases List.mem_cons.mp hc with hc2 | hc2
        · simp at hc2
        · have := hdb 'd' hc2
          simp [Char.isDigit] at this
  have hdice : scanDice ('+' :: (a ++ '+' :: b)) = [] :=
    scanDiceF_no_d _ _ hnod
  refine ⟨hscan, fun hle => ?_, by decide⟩
  simp [parse, hdice, hscan, processDiceMatches, processConstMatches, parseI32, hle]

theorem parseI32_err (l : List Char) (e : RollError) (h : parseI32 l = .error e) :
    e = .numberParseFailure := by
  unfold parseI32 at h
  split at h
  · simp at h
  · injection h with h2
    exact h2.symm

theorem parseI32_ok (l : List Char) (n : Int) (h : parseI32 l = .ok n) :
    n = Int.ofNat (digitsToNat l) ∧ digitsToNat l ≤ i32Max := by
  unfold parseI32 at h
  split at h
  · rename_i hle
    injection h with h2
    exact ⟨h2.symm, hle⟩
  · simp at h

theorem processDice_bad_count (ms : List DiceMatch) :
    ∀ acc, (∃ m ∈ ms, i32Max < digitsToNat m.count) →
      ∃ e, processDiceMatches ms acc = .error e := by
  induction ms with
  | nil => intro acc h; simp at h
  | cons m ms ih =>
    intro acc h
    rcases h with ⟨m0, hm0, hbad⟩
    rcases List.mem_cons.mp hm0 with rfl | hm0
    · refine ⟨.numberParseFailure, ?_⟩
      have hp : parseI32 m0.count = .error .numberParseFailure := by
        unfold parseI32
        split
        · rename_i hle
          exfalso
          omega
        · rfl
      simp only [processDiceMatches, hp]
    · rcases hp : parseI32 m.count with e | n
      · exact ⟨e, by simp only [processDiceMatches, hp]⟩
      · rcases hpg : pushGroupDice m.dtype n.toNat acc with e | acc2
        · exact ⟨e, by simp only [processDiceMatches, hp, hpg]⟩
        · obtain ⟨e, he⟩ := ih acc2 ⟨m0, hm0, hbad⟩
          exact ⟨e, by simp only [processDiceMatches, hp, hpg]; exact he⟩

theorem processConst_bad (ms : List ConstMatch) :
    ∀ acc, (∃ m ∈ ms, i32Max < digitsToNat m.constDigits) →
      ∃ e, processConstMatches ms acc = .error e := by
  induction ms with
  | nil => intro acc h; simp at h
  | cons m ms ih =>
    intro acc h
    rcases h with ⟨m0, hm0, hbad⟩
    rcases List.mem_cons.mp hm0 with rfl | hm0
    · refine ⟨.numberParseFailure, ?_⟩
      have hp : parseI32 m0.constDigits = .error .numberParseFailure := by
        unfold parseI32
        split
        · rename_i hle
          exfalso
          omega
        · rfl
      simp only [processConstMatches, hp]
    · rcases hp : parseI32 m.constDigits with e | v
      · exact ⟨e, by simp only [processConstMatches, hp]⟩
      · obtain ⟨e, he⟩ := ih (acc ++ [v]) ⟨m0, hm0, hbad⟩
        exact ⟨e, by simp only [processConstMatches, hp]; exact he⟩

theorem processConst_err_npf (ms : List ConstMatch) :
    ∀ acc e, processConstMatches ms acc = .error e → e = .numberParseFailure := by
  induction ms with
  | nil => intro acc e h; simp [processConstMatches] at h
  | cons m ms ih =>
    intro acc e h
    rcases hp : parseI32 m.constDigits with e0 | v
    · simp only [processConstMatches, hp] at h
      injection h with h2
      subst h2
      exact parseI32_err _ _ hp
    · simp only [processConstMatches, hp] at h
      exact ih _ _ h

theorem processDice_err_npf (ms : List DiceMatch) :
    ∀ acc e, (∀ m ∈ ms, digitsToNat m.count = 0 ∨ (Dice.fromStr m.dtype).isSome = true) →
      processDiceMatches ms acc = .error e → e = .numberParseFailure := by
  induction ms with
  | nil => intro acc e _ h; simp [processDiceMatches] at h
  | cons m ms ih =>
    intro acc e hcond h
    have hcondTail : ∀ x ∈ ms, digitsToNat x.count = 0 ∨ (Dice.fromStr x.dtype).isSome = true :=
      fun x hx => hcond x (List.mem_cons_of_mem m hx)
    rcases hp : parseI32 m.count with e0 | n
    · simp only [processDiceMatches, hp] at h
      injection h with h2
      subst h2
      exact parseI32_err _ _ hp
    · obtain ⟨hn, hle⟩ := parseI32_ok _ _ hp
      rcases hcond m (List.mem_cons_self m ms) with h0 | hsome
      · have hn0 : n.toNat = 0 := by rw [hn, h0]; rfl
        simp only [processDiceMatches, hp, hn0, pushGroupDice] at h
        exact ih _ _ hcondTail h
      · obtain ⟨d, hd⟩ := Option.isSome_iff_exists.mp hsome
        have hpg := pushGroupDice_of_fromStr m.dtype d hd n.toNat acc
        simp only [processDiceMatches, hp, hpg] at h
        exact ih _ _ hcondTail h

theorem parse_error_cases (s : List Char) (e : RollError) (h : parse s = .error e) :
    processDiceMatches (scanDice s) [] = .error e ∨
    (∃ dice, processDiceMatches (scanDice s) [] = .ok dice ∧
      processConstMatches (scanConsts s) [] = .error e) := by
  unfold parse at h
  rcases hd : processDiceMatches (scanDice s) [] with e0 | dice
  · simp only [hd] at h
    injection h with h2
    subst h2
    exact Or.inl rfl
  · simp only [hd] at h
    rcases hc : processConstMatches (scanConsts s) [] with e0 | cs
    · simp only [hc] at h
      injection h with h2
      subst h2
      exact Or.inr ⟨dice, rfl, rfl⟩
    · simp only [hc] at h
      exact absurd h (by simp)

theorem parse_bad_number_error (s : List Char) (hbad : badNumericCaptureB s = true) :
    ∃ e, parse s = .error e := by
  unfold badNumericCaptureB at hbad
  rcases (Bool.or_eq_true _ _).mp hbad with h1 | h2
  · obtain ⟨m, hm, hgt⟩ : ∃ m ∈ scanDice s, i32Max < digitsToNat m.count := by
      simpa using h1
    obtain ⟨e, he⟩ := processDice_bad_count (scanDice s) [] ⟨m, hm, hgt⟩
    exact ⟨e, by unfold parse; simp only [he]⟩
  · obtain ⟨m, hm, hgt⟩ : ∃ m ∈ scanConsts s, i32Max < digitsToNat m.constDigits := by
      simpa using h2
    rcases hd : processDiceMatches (scanDice s) [] with e0 | dice
    · exact ⟨e0, by unfold parse; simp only [hd]⟩
    · obtain ⟨e, he⟩ := processConst_bad (scanConsts s) [] ⟨m, hm, hgt⟩
      exact ⟨e, by unfold parse; simp only [hd, he]⟩

/-- Claim C6, amended: when a digit run captured as a dice-group count
or as a constant exceeds the i32 range, the run never produces a Roll
or a total and leaves the random state untouched — no die is rolled;
the failure is precisely the malformed-number failure whenever every
dice-group match has a zero count or a supported die type (otherwise
the unreachable-code abort of an earlier unsupported group can occur
first, because the dice loop runs before the constants loop). -/
theorem parse_bad_number_aborts (s : List Char) (crit : Int) (g : Rng)
    (hbad : badNumericCaptureB s = true) :
    (∃ e, run s crit g = (.error e, g)) ∧
    ((∀ m ∈ scanDice s, digitsToNat m.count = 0 ∨ (Dice.fromStr m.dtype).isSome = true) →
      run s crit g = (.error .numberParseFailure, g)) := by
  obtain ⟨e, he⟩ := parse_bad_number_error s hbad
  constructor
  · exact ⟨e, by unfold run; simp only [he]⟩
  · intro hcond
    have henpf : e = .numberParseFailure := by
      rcases parse_error_cases s e he with hca | ⟨dice, hok, herr⟩
      · exact processDice_err_npf (scanDice s) [] e hcond hca
      · exact processConst_err_npf (scanConsts s) [] e herr
    rw [henpf] at he
    unfold run
    simp only [he]

/-- Counterexample to Claim C6 as stated: in "2d7x99999999999d4" the
second dice group's count capture 99999999999 exceeds the i32 range,
yet parsing does not fail with the malformed-number failure — the
earlier group "2d7" reaches the `unreachable!()` branch first. -/
theorem parse_bad_number_counterexample :
    badNumericCaptureB sMixedBad = true ∧
    parse sMixedBad = .error .unreachableCode ∧
    parse sMixedBad ≠ .error .numberParseFailure := by
  decide

/-- Witness for the amended C6: "9999999999d4" has a count capture past
the i32 range, every dice-group match has a supported die type, and the
run aborts with the malformed-number failure, leaving the random state
untouched. -/
theorem parse_bad_number_aborts_witness :
    badNumericCaptureB sBigCount = true ∧
    run sBigCount 2 [7] = (.error .numberParseFailure, [7]) := by
  refine ⟨by decide, ?_⟩
  exact (parse_bad_number_aborts sBigCount 2 [7] (by decide)).2 (by decide)

/-- Witness for C10: "+6+9" yields the single constant 6. -/
theorem glued_constants_single_witness :
    scanConsts sGlued = [⟨0, ['6']⟩] ∧ parse sGlued = .ok ⟨[], [6]⟩ := by
  have h := glued_constants_single ['6'] ['9'] (by decide) (by decide)
    (by decide) (by decide)
  exact ⟨h.1, h.2.1 (by decide)⟩

end Roller
